import Mathlib

/-!
# Verification of the register encoding/decoding core of `intel-undervolt`

Shallow embedding of `src/undervolt.c`.  Machine integers are modelled as
`ℕ` (for the C unsigned 64-bit registers, with `% 2 ^ 64` where overflow can
occur) and `ℤ` (for C `int`); C `float` quantities are modelled as exact
rationals `ℚ`, with `log2f`/`exp2f` modelled by exact base-2 logarithms and
powers (`Int.log`/`Int.clog` give the truncated logarithm of a positive
rational).  The fractional quantities `diff` that `power_from_seconds`
compares are represented by their exact exponentials `2 ^ diff`, which are
rationals; since `x ↦ 2 ^ x` is strictly monotone this preserves every
comparison performed by the C code.

Hardware accesses (`rd`, `wr`, `safe_rw`) are syscalls; each applier is
modelled as a pure function taking an *environment* record holding the
outcome of each access the C code can perform (success flag and value
read), and returning the applier's observable behaviour: its boolean
result, the error string it selects, which accesses it attempted, and the
values it computes.  The `config_t` / `uv_list_t` / `power_limit_t` field
types are declared in `undervolt.h`, which is not part of the sources;
they are modelled from the spec (watts as signed integers, seconds as
rationals, labels as strings).
-/

/-- The C cast `(int) log2f(v)` for `v > 0`: the base-2 logarithm of `v`
truncated toward zero.  For `v ≥ 1` this is `⌊log₂ v⌋ = Int.log 2 v`; for
`0 < v < 1` the logarithm is negative and truncation toward zero gives
`⌈log₂ v⌉ = Int.clog 2 v`. -/
def truncLog2 (v : ℚ) : ℤ :=
  if 1 ≤ v then Int.log 2 v else Int.clog 2 v

/-- `power_to_seconds` (src/undervolt.c lines 99–103):
`multiplier = 1 + ((value >> 6) & 0x3) / 4`, `exponent = (value >> 1) & 0x1f`,
result `= 2^exponent * multiplier / time_unit`.  `value` is a C `int`
(arithmetic right shift, two's-complement bitwise and, as gcc implements
them); the float computation is modelled exactly over `ℚ`. -/
def power_to_seconds (value : ℤ) (time_unit : ℕ) : ℚ :=
  let multiplier : ℚ := 1 + (((value >>> (6 : ℤ)).land 0x3 : ℤ) : ℚ) / 4
  let exponent : ℤ := (value >>> (1 : ℤ)).land 0x1f
  2 ^ exponent * multiplier / (time_unit : ℚ)

/-- The field `(i << 6) | (exponent_int << 1)` assembled by the search loop
of `power_from_seconds` (line 125), on two's-complement `int`s. -/
def pfsField (i : ℕ) (exponent_int : ℤ) : ℤ :=
  ((i : ℤ) <<< (6 : ℤ)).lor (exponent_int <<< (1 : ℤ))

/-- One iteration (index `i`) of the multiplier search loop of
`power_from_seconds` (src/undervolt.c lines 112–128).  The accumulator
`acc = (last_diff, last_result)` carries `last_diff` as `2 ^ last_diff : ℚ`
(see the file header); `diff > 0.5` is `2 ^ diff > 2 ^ (1/2)`, i.e.
`(2 ^ diff) ^ 2 > 2`, and `diff < last_diff` is `2 ^ diff < 2 ^ last_diff`.
For a nonpositive `value` (where `log2f` yields NaN and every C comparison
is false) the model is not faithful; no caller reaches that case: the
splices in `power_limit` only encode strictly positive windows. -/
def pfsStep (seconds : ℚ) (time_unit : ℕ) (acc : ℚ × ℤ) (i : ℕ) : ℚ × ℤ :=
  let multiplier : ℚ := 1 + (i : ℚ) / 4
  let value : ℚ := seconds * (time_unit : ℚ) / multiplier
  let exponent_int : ℤ := truncLog2 value
  -- `diff2 = 2 ^ (exponent - exponent_int)` where `exponent = log₂ value`
  let diff2 : ℚ := value / 2 ^ exponent_int
  let step : ℤ × ℚ :=
    if exponent_int < 0x19 ∧ 2 < diff2 ^ 2 then
      (exponent_int + 1, 2 ^ (exponent_int + 1) / value)
    else (exponent_int, diff2)
  if step.1 < 0x20 then
    if step.2 < acc.1 then (step.2, pfsField i step.1) else acc
  else acc

/-- `power_from_seconds` (src/undervolt.c lines 105–131).  The saturation
guard `log2f(seconds * time_unit / 1.75f) >= 0x1f` holds exactly when
`seconds * time_unit / 1.75 ≥ 2 ^ 0x1f` (for a nonpositive argument the C
comparison on the NaN/−∞ result of `log2f` is false, matching the model).
The loop starts from `last_diff = 1` (carried as `2 ^ 1 = 2`) and
`last_result = 0`. -/
def power_from_seconds (seconds : ℚ) (time_unit : ℕ) : ℤ :=
  if (2 : ℚ) ^ (0x1f : ℕ) ≤ seconds * (time_unit : ℚ) / 1.75 then 0xfe
  else ((List.range 4).foldl (pfsStep seconds time_unit) (2, 0)).2

/-- The clamped raw short-term/long-term power field of a power-limit write
(src/undervolt.c lines 180–187): with `max_power = 0x7fff / power_unit`
(C integer division), a negative request encodes as `0`, a request above
`max_power` encodes as `max_power`, and otherwise the request is multiplied
by `power_unit`. -/
def plClampTerm (request : ℤ) (power_unit : ℕ) : ℤ :=
  let max_power : ℤ := 0x7fff / (power_unit : ℤ)
  if request < 0 then 0
  else if max_power < request then max_power
  else request * (power_unit : ℤ)

/-- The register value computed by the write branch of `power_limit`
(src/undervolt.c lines 180–201) from the pre-write value `msr_limit`:
splice the clamped power fields under mask `0xffff8000ffff8000`, then, for
each strictly positive time window, splice the `power_from_seconds` field
(converted to `uint64_t`, i.e. reduced mod `2 ^ 64`) at bit 48 (mask
`0xff01ffffffffffff`) resp. bit 16 (mask `0xffffffffff01ffff`). -/
def plWriteValue (msr_limit : ℕ) (power_unit time_unit : ℕ)
    (short_term long_term : ℤ) (short_time_window long_time_window : ℚ) : ℕ :=
  let masked := msr_limit &&& 0xffff8000ffff8000
  let short_term' : ℕ := (plClampTerm short_term power_unit).toNat
  let long_term' : ℕ := (plClampTerm long_term power_unit).toNat
  let value := masked ||| (short_term' <<< 32) ||| long_term'
  let value :=
    if 0 < short_time_window then
      let time : ℕ := ((power_from_seconds short_time_window time_unit) % (2 ^ 64 : ℤ)).toNat
      (value &&& 0xff01ffffffffffff) ||| ((time <<< 48) % 2 ^ 64)
    else value
  let value :=
    if 0 < long_time_window then
      let time : ℕ := ((power_from_seconds long_time_window time_unit) % (2 ^ 64 : ℤ)).toNat
      (value &&& 0xffffffffff01ffff) ||| ((time <<< 16) % 2 ^ 64)
    else value
  value

/-- The combined mask of register bits a power-limit write must leave
unchanged: everything outside the two 15-bit power fields, and, for each
strictly positive time window, also outside its spliced field. -/
def plPreservedMask (short_time_window long_time_window : ℚ) : ℕ :=
  0xffff8000ffff8000 &&&
    (if 0 < short_time_window then 0xff01ffffffffffff else 0xffffffffffffffff) &&&
    (if 0 < long_time_window then 0xffffffffff01ffff else 0xffffffffffffffff)

/-- The voltage-offset encoding of `undervolt_it` (src/undervolt.c lines
55–57): `((uint64_t) (0x800 - absf(value) * 1.024f + 0.5f) << 21) &
0xffffffff`, the float-to-integer cast modelled by `Int.floor` (the
argument is nonnegative for every magnitude the codec represents; a
negative argument is undefined behaviour in C and is clamped to `0` by
`Int.toNat`). -/
def uvEncode (value : ℚ) : ℕ :=
  ((⌊(0x800 : ℚ) - |value| * 1.024 + 0.5⌋).toNat <<< 21) &&& 0xffffffff

/-- The voltage-offset decoding of `undervolt_it` (src/undervolt.c line 79):
`((0x800 - (rdval >> 21)) & (0x800 - 1)) / 1.024f`, where the subtraction
`int - uint64_t` is performed in `uint64_t` arithmetic (mod `2 ^ 64`). -/
def uvDecode (rdval : ℕ) : ℚ :=
  (((((0x800 : ℤ) - ((rdval >>> 21 : ℕ) : ℤ)) % (2 ^ 64 : ℤ)).toNat &&& (0x800 - 1) : ℕ) : ℚ) / 1.024

/-- Modelled from the spec: a `uv_list_t` entry (Voltage Plane Target):
`{title: string label, index: integer plane selector, value: desired offset
in millivolts (signed, magnitude used)}`; `undervolt.h` is not among the
sources. -/
structure UvTarget where
  title : String
  index : ℕ
  value : ℚ

/-- Outcomes of the MSR accesses one `undervolt_it` call can perform:
success of the write of `wrval`, success of the read-request write of
`rdval`, success of the read, the 64-bit value that read returns, and the
`strerror(errno)` text current at failure time. -/
structure UvEnv where
  wrOk : Bool
  wrRdOk : Bool
  rdOk : Bool
  rdVal : ℕ
  sysErr : String

/-- Result of one `undervolt_it` call: `ok` is `errstr == NULL`
(whether `ctx.success` is left untouched), `line` the `printf` payload. -/
structure UvOutcome where
  ok : Bool
  line : String

/-- `undervolt_it` (src/undervolt.c lines 52–82) for one target, given the
outcomes of its register accesses.  `rdval`/`wrval` are built exactly as in
the source (`uint64_t`, so reduced mod `2 ^ 64`); the verification compares
the low 32 bits of the read-back value with the low 32 bits of `wrval`.
The separator bookkeeping (`NEW_LINE`) and `%.02f` float formatting are the
caller's formatting collaborators and are not modelled; the printed number
is carried as an exact rational. -/
def undervolt_it (write : Bool) (uv : UvTarget) (env : UvEnv) : UvOutcome :=
  let uvint : ℕ := uvEncode uv.value
  let rdval : ℕ := (0x8000001000000000 ||| ((uv.index <<< 40) % 2 ^ 64)) % 2 ^ 64
  let wrval : ℕ := rdval ||| 0x100000000 ||| uvint
  let write_success : Bool := !write || env.wrOk
  let read_success : Bool := write_success && env.wrRdOk && env.rdOk
  let errstr : Option String :=
    if !write_success ∨ !read_success then some env.sysErr
    else if write = true ∧ (env.rdVal &&& 0xffffffff) ≠ (wrval &&& 0xffffffff) then
      some "Values do not equal"
    else none
  match errstr with
  | some e => { ok := false, line := uv.title ++ " (" ++ toString uv.index ++ "): " ++ e }
  | none =>
      { ok := true
        line := uv.title ++ " (" ++ toString uv.index ++ "): -" ++
          toString (uvDecode env.rdVal) ++ " mV" }

/-- `undervolt` (src/undervolt.c lines 84–97): iterate `undervolt_it` over
the whole target list (each target paired with the outcomes of its own
accesses), starting from `ctx.success = true`; an error sets `ctx.success`
to `false` and nothing resets it.  Returns the final flag and the emitted
report lines. -/
def undervolt (write : Bool) (targets : List (UvTarget × UvEnv)) : Bool × List String :=
  targets.foldl
    (fun acc t =>
      let r := undervolt_it write t.1 t.2
      (acc.1 && r.ok, acc.2 ++ [r.line]))
    (true, [])

/-- Outcomes of the accesses one `power_limit` call can perform
(src/undervolt.c lines 133–248): the reads of the domain limit register,
of the memory-mapped limit (via `safe_rw`), and of `MSR_ADDR_UNITS`, the
two writes, and the `strerror(errno)` text.  Values of reads that the code
never performs stand for the uninitialised C locals. -/
structure PlEnv where
  rdMsrOk : Bool
  msrVal : ℕ
  rdMemOk : Bool
  memVal : ℕ
  rdUnitsOk : Bool
  unitsVal : ℕ
  wrMsrOk : Bool
  wrMemOk : Bool
  sysErr : String

/-- Modelled from the spec: a `power_limit_t` request (`undervolt.h` is not
among the sources): `apply`, short/long term watts (C `int`, signed),
short/long time windows in seconds (C `float`, nonpositive = leave
unchanged). -/
structure PlRequest where
  apply : Bool
  short_term : ℤ
  long_term : ℤ
  short_time_window : ℚ
  long_time_window : ℚ

/-- Observable behaviour of one `power_limit` call: the returned flag
(`errstr == NULL`), the final error string, which accesses were attempted,
the merged logical copies `(msr_limit, mem_limit)` available to the logic
downstream of lines 160–169 (`none` when that point is not reached without
error), and the value the write branch computes and writes (`none` when not
writing or not reached; on a fully successful write it becomes the new
authoritative value of both logical copies, lines 206–207). -/
structure PlResult where
  ok : Bool
  errstr : Option String
  readMsrTried : Bool
  readMemTried : Bool
  readUnitsTried : Bool
  writeMsrTried : Bool
  writeMemTried : Bool
  msrLimit : Option ℕ
  memLimit : Option ℕ
  written : Option ℕ

/-- `power_limit` (src/undervolt.c lines 133–248) for the domain with
register address `msr_addr` and memory address `mem_addr` (zero meaning the
path does not exist), given the outcomes of its accesses.  `power_unit` and
`time_unit` are `(int) (exp2f(units & 0xf) + 0.5f)` and
`(int) (exp2f((units >> 16) & 0xf) + 0.5f)`, which are exactly
`2 ^ (units & 0xf)` and `2 ^ ((units >> 16) & 0xf)`.  The report-only
branch (lines 214–241) only formats output and is not modelled beyond the
error string selection. -/
def power_limit (write : Bool) (msr_addr mem_addr : ℕ) (power : PlRequest)
    (env : PlEnv) : PlResult :=
  if power.apply then
    let readMsrTried := msr_addr ≠ 0
    let msrReadPassed := msr_addr = 0 ∨ env.rdMsrOk = true
    let readMemTried := msrReadPassed ∧ mem_addr ≠ 0
    let memReadPassed := msrReadPassed ∧ (mem_addr = 0 ∨ env.rdMemOk = true)
    let readUnitsTried := memReadPassed
    let errstr : Option String :=
      if msrReadPassed then
        if mem_addr = 0 ∨ env.rdMemOk = true then
          if env.rdUnitsOk = false then some env.sysErr else none
        else some "Segmentation fault"
      else some env.sysErr
    let errstr : Option String :=
      if errstr = none ∧ msr_addr = 0 ∧ mem_addr = 0 then some "No method available"
      else errstr
    -- the merged logical copies of lines 161–165
    let msr_limit : ℕ := if msr_addr = 0 then env.memVal else env.msrVal
    let mem_limit : ℕ :=
      if msr_addr = 0 then env.memVal
      else if mem_addr = 0 then env.msrVal else env.memVal
    match errstr with
    | some e =>
        { ok := false, errstr := some e
          readMsrTried := decide readMsrTried, readMemTried := decide readMemTried
          readUnitsTried := decide readUnitsTried
          writeMsrTried := false, writeMemTried := false
          msrLimit := none, memLimit := none, written := none }
    | none =>
        let power_unit : ℕ := 2 ^ (env.unitsVal &&& 0xf)
        let time_unit : ℕ := 2 ^ ((env.unitsVal >>> 16) &&& 0xf)
        if write then
          let value := plWriteValue msr_limit power_unit time_unit
            power.short_term power.long_term power.short_time_window power.long_time_window
          let writeMsrTried := msr_addr ≠ 0
          let msrWritePassed := msr_addr = 0 ∨ env.wrMsrOk = true
          let writeMemTried := msrWritePassed ∧ mem_addr ≠ 0
          let errstr' : Option String :=
            if msrWritePassed then
              if mem_addr = 0 ∨ env.wrMemOk = true then none
              else some "Segmentation fault"
            else some env.sysErr
          { ok := errstr'.isNone, errstr := errstr'
            readMsrTried := decide readMsrTried, readMemTried := decide readMemTried
            readUnitsTried := decide readUnitsTried
            writeMsrTried := decide writeMsrTried, writeMemTried := decide writeMemTried
            msrLimit := some msr_limit
            memLimit := some mem_limit
            written := some value }
        else
          { ok := true, errstr := none
            readMsrTried := decide readMsrTried, readMemTried := decide readMemTried
            readUnitsTried := decide readUnitsTried
            writeMsrTried := false, writeMemTried := false
            msrLimit := some msr_limit, memLimit := some mem_limit, written := none }
  else
    { ok := true, errstr := none
      readMsrTried := false, readMemTried := false, readUnitsTried := false
      writeMsrTried := false, writeMemTried := false
      msrLimit := none, memLimit := none, written := none }

/-- Modelled from the spec and C library behaviour: the argument `printf`
formats for a `%s` conversion whose argument may be a null `const char *`;
glibc prints `(null)` for a null pointer. -/
def cstr : Option String → String
  | some s => s
  | none => "(null)"

/-- Outcomes of the accesses one `tjoffset` call can perform
(src/undervolt.c lines 250–286): the read/write of the temperature-target
register in the write phase and the re-read in the report phase. -/
structure TjEnv where
  rd1Ok : Bool
  rd1Val : ℕ
  wrOk : Bool
  rd2Ok : Bool
  rd2Val : ℕ
  sysErr : String

/-- Observable behaviour of one `tjoffset` call: the returned flag, the
report lines, and the register value passed to the write (`none` when no
write is attempted). -/
structure TjResult where
  ok : Bool
  lines : List String
  written : Option ℕ

/-- `tjoffset` (src/undervolt.c lines 250–286): when writing, read the
temperature register, clamp `|offset|` to `0x3f`, splice it at bit 24 under
mask `0xffffffffc0ffffff`, and write back; then (whether writing or not)
if report output is requested (`nl` non-null), re-read the register and
print the decoded offset — on a failed re-read it prints the *current*
`errstr`, which is necessarily `NULL` at that point.  Returns
`errstr == NULL` and the report lines. -/
def tjoffset (write : Bool) (apply : Bool) (offset : ℤ) (nl : Bool)
    (env : TjEnv) : TjResult :=
  if apply then
    let off : ℕ := if 0x3f < |offset|.toNat then 0x3f else |offset|.toNat
    let limit : ℕ := (env.rd1Val &&& 0xffffffffc0ffffff) ||| (off <<< 24)
    let written : Option ℕ := if write ∧ env.rd1Ok = true then some limit else none
    let errstr : Option String :=
      if write then
        if env.rd1Ok then
          if env.wrOk then none else some env.sysErr
        else some env.sysErr
      else none
    let lines : List String :=
      match errstr with
      | some e => ["Failed to write temperature offset: " ++ e]
      | none =>
          if nl then
            if env.rd2Ok then
              ["Critical offset: -" ++ toString ((env.rd2Val &&& 0x3f000000) >>> 24) ++ "°C"]
            else
              ["Failed to read temperature offset: " ++ cstr errstr]
          else []
    { ok := errstr.isNone, lines := lines, written := written }
  else { ok := true, lines := [], written := none }

/-! ### Proof-support views of one search-loop candidate of
`power_from_seconds` (index `i` of the loop of lines 112–128): the value
`seconds * time_unit / multiplier`, its truncated logarithm, whether the
rounding-up rule fires, and the final exponent and `2 ^ diff`. -/

/-- The per-candidate `value` of the search loop. -/
def pfsV (seconds : ℚ) (time_unit i : ℕ) : ℚ :=
  seconds * (time_unit : ℚ) / (1 + (i : ℚ) / 4)

/-- The per-candidate truncated exponent before rounding. -/
def pfsE0 (seconds : ℚ) (time_unit i : ℕ) : ℤ :=
  truncLog2 (pfsV seconds time_unit i)

/-- Whether the rounding-up rule (`exponent_int < 0x19 && diff > 0.5f`)
fires for candidate `i`. -/
def pfsUp (seconds : ℚ) (time_unit i : ℕ) : Prop :=
  pfsE0 seconds time_unit i < 0x19 ∧
    2 < (pfsV seconds time_unit i / 2 ^ pfsE0 seconds time_unit i) ^ 2

instance (seconds : ℚ) (time_unit i : ℕ) : Decidable (pfsUp seconds time_unit i) :=
  inferInstanceAs (Decidable (_ ∧ _))

/-- The per-candidate final exponent. -/
def pfsE (seconds : ℚ) (time_unit i : ℕ) : ℤ :=
  if pfsUp seconds time_unit i then pfsE0 seconds time_unit i + 1
  else pfsE0 seconds time_unit i

/-- The per-candidate final `2 ^ diff`. -/
def pfsQ (seconds : ℚ) (time_unit i : ℕ) : ℚ :=
  if pfsUp seconds time_unit i then
    2 ^ (pfsE0 seconds time_unit i + 1) / pfsV seconds time_unit i
  else pfsV seconds time_unit i / 2 ^ pfsE0 seconds time_unit i

/-! ### Generic bitwise lemmas -/

-- `(x ||| a) &&& M = x &&& M` when `a` has no bit inside `M`.
theorem or_and_of_disjoint (x a M : ℕ) (h : a &&& M = 0) :
    (x ||| a) &&& M = x &&& M := by
  apply Nat.eq_of_testBit_eq
  intro j
  have hj := congrArg (fun t => Nat.testBit t j) h
  simp only [Nat.testBit_and, Nat.zero_testBit] at hj
  simp only [Nat.testBit_and, Nat.testBit_or]
  cases hx : Nat.testBit x j <;> cases ha : Nat.testBit a j <;>
    cases hM : Nat.testBit M j <;> simp_all

-- `(x &&& m) &&& M = x &&& M` when `M` is contained in `m`.
theorem and_and_of_subset (x m M : ℕ) (h : M &&& m = M) :
    (x &&& m) &&& M = x &&& M := by
  apply Nat.eq_of_testBit_eq
  intro j
  have hj := congrArg (fun t => Nat.testBit t j) h
  simp only [Nat.testBit_and] at hj
  simp only [Nat.testBit_and]
  cases hx : Nat.testBit x j <;> cases hm : Nat.testBit m j <;>
    cases hM : Nat.testBit M j <;> simp_all

-- A left shift masks like the shifted mask.
theorem shiftLeft_and (x M k : ℕ) : (x <<< k) &&& M = (x &&& (M >>> k)) <<< k := by
  apply Nat.eq_of_testBit_eq
  intro j
  simp only [Nat.testBit_and, Nat.testBit_shiftLeft, Nat.testBit_shiftRight]
  by_cases hk : k ≤ j
  · have : k + (j - k) = j := Nat.add_sub_cancel' hk
    rw [this]
    simp [ge_iff_le, hk, Bool.and_assoc]
  · simp [ge_iff_le, hk]

-- `x &&& c = 0` when `x` lives below bit `k` and `c` has no bit below `k`.
theorem and_eq_zero_of_bounds (x c k : ℕ) (hx : x < 2 ^ k) (hc : c % 2 ^ k = 0) :
    x &&& c = 0 := by
  apply Nat.eq_of_testBit_eq
  intro j
  simp only [Nat.testBit_and, Nat.zero_testBit]
  by_cases hj : j < k
  · have hcj : c.testBit j = false := by
      have := Nat.testBit_mod_two_pow c k j
      rw [hc] at this
      simp only [Nat.zero_testBit, hj, decide_True, Bool.true_and] at this
      exact this.symm
    simp [hcj]
  · have hxj : x.testBit j = false :=
      Nat.testBit_lt_two_pow
        (lt_of_lt_of_le hx (Nat.pow_le_pow_right (by norm_num) (le_of_not_lt hj)))
    simp [hxj]

/-! ### Bridging lemmas between `ℤ` and `ℕ` bitwise operations -/

theorem int_ofNat_lor (a b : ℕ) : Int.lor (a : ℤ) (b : ℤ) = ((a ||| b : ℕ) : ℤ) := rfl

theorem int_ofNat_lor_negSucc (a b : ℕ) :
    Int.lor (a : ℤ) (Int.negSucc b) = Int.negSucc (Nat.ldiff b a) := rfl

theorem int_ofNat_land (a b : ℕ) : Int.land (a : ℤ) (b : ℤ) = ((a &&& b : ℕ) : ℤ) := rfl

theorem int_ofNat_shiftLeft (a n : ℕ) : (a : ℤ) <<< (n : ℤ) = ((a <<< n : ℕ) : ℤ) := by
  show Int.ofNat a <<< Int.ofNat n = Int.ofNat (a <<< n)
  rw [show Int.ofNat a <<< Int.ofNat n = Int.ofNat (Nat.shiftLeft' false a n) from rfl,
    Nat.shiftLeft'_false]

theorem int_negSucc_shiftLeft (a n : ℕ) :
    (Int.negSucc a) <<< (n : ℤ) = Int.negSucc (Nat.shiftLeft' true a n) := rfl

theorem int_ofNat_shiftRight (a n : ℕ) : (a : ℤ) >>> (n : ℤ) = ((a >>> n : ℕ) : ℤ) := by
  cases n with
  | zero => rfl
  | succ k => rfl

/-! ### Evaluation of `truncLog2` -/

theorem truncLog2_eq_of_one_le {v : ℚ} {k : ℤ} (h1 : 1 ≤ v)
    (h2 : (2 : ℚ) ^ k ≤ v) (h3 : v < (2 : ℚ) ^ (k + 1)) : truncLog2 v = k := by
  have hv : (0 : ℚ) < v := lt_of_lt_of_le one_pos h1
  unfold truncLog2
  rw [if_pos h1]
  have hcast : (((2 : ℕ) : ℚ)) = (2 : ℚ) := by norm_num
  have hlo : k ≤ Int.log 2 v :=
    (Int.zpow_le_iff_le_log one_lt_two hv).mp (by rw [hcast]; exact h2)
  have hhi : Int.log 2 v < k + 1 :=
    (Int.lt_zpow_iff_log_lt one_lt_two hv).mp (by rw [hcast]; exact h3)
  omega

theorem truncLog2_eq_of_lt_one {v : ℚ} {k : ℤ} (h0 : 0 < v) (h1 : v < 1)
    (h2 : (2 : ℚ) ^ (k - 1) < v) (h3 : v ≤ (2 : ℚ) ^ k) : truncLog2 v = k := by
  unfold truncLog2
  rw [if_neg (not_le.mpr h1)]
  have hcast : (((2 : ℕ) : ℚ)) = (2 : ℚ) := by norm_num
  have hlo : k - 1 < Int.clog 2 v :=
    (Int.zpow_lt_iff_lt_clog one_lt_two h0).mp (by rw [hcast]; exact h2)
  have hhi : Int.clog 2 v ≤ k :=
    (Int.le_zpow_iff_clog_le one_lt_two h0).mp (by rw [hcast]; exact h3)
  omega

/-- **C4**: for every seconds value and time unit whose product reaches the
saturation threshold — `log2f(seconds * time_unit / 1.75) ≥ 0x1f`, i.e.
`seconds * time_unit / 1.75 ≥ 2 ^ 31` — `power_from_seconds` returns
exactly the saturation sentinel field `0xfe`. -/
theorem power_from_seconds_saturates (seconds : ℚ) (time_unit : ℕ)
    (h : (2 : ℚ) ^ (0x1f : ℕ) ≤ seconds * (time_unit : ℚ) / 1.75) :
    power_from_seconds seconds time_unit = 0xfe := by
  unfold power_from_seconds
  rw [if_pos h]

theorem power_from_seconds_saturates_witness :
    power_from_seconds ((2 : ℚ) ^ (32 : ℕ)) 1 = 0xfe :=
  power_from_seconds_saturates ((2 : ℚ) ^ (32 : ℕ)) 1 (by norm_num)

/-- **C1**: in a power-limit write, with `max_power = 0x7fff / power_unit`,
a requested short-term/long-term wattage below zero encodes raw field `0`;
a request above `max_power` encodes as `max_power`; an in-range request is
converted to raw units by multiplying by `power_unit` and fits the 15-bit
field (`≤ 0x7fff`). -/
theorem plClampTerm_spec (request : ℤ) (power_unit : ℕ) (hpu : 1 ≤ power_unit) :
    (request < 0 → plClampTerm request power_unit = 0) ∧
    (0x7fff / (power_unit : ℤ) < request →
      plClampTerm request power_unit = 0x7fff / (power_unit : ℤ)) ∧
    (0 ≤ request → request ≤ 0x7fff / (power_unit : ℤ) →
      plClampTerm request power_unit = request * (power_unit : ℤ) ∧
      plClampTerm request power_unit ≤ 0x7fff) := by
  have hpu' : (0 : ℤ) < (power_unit : ℤ) := by exact_mod_cast hpu
  unfold plClampTerm
  refine ⟨fun h => by rw [if_pos h], fun h => ?_, fun h1 h2 => ?_⟩
  · have hnn : ¬ request < 0 := by
      have : (0 : ℤ) ≤ 0x7fff / (power_unit : ℤ) :=
        Int.ediv_nonneg (by norm_num) (le_of_lt hpu')
      omega
    rw [if_neg hnn, if_pos h]
  · rw [if_neg (by omega), if_neg (by omega)]
    constructor
    · rfl
    · calc request * (power_unit : ℤ)
          ≤ 0x7fff / (power_unit : ℤ) * (power_unit : ℤ) :=
            mul_le_mul_of_nonneg_right h2 (le_of_lt hpu')
        _ ≤ 0x7fff := Int.ediv_mul_le _ (ne_of_gt hpu')

theorem plClampTerm_spec_witness :
    plClampTerm (-3) 8 = 0 ∧ plClampTerm 5000 8 = 4095 ∧
    plClampTerm 10 8 = 80 ∧ plClampTerm 10 8 ≤ 0x7fff :=
  ⟨(plClampTerm_spec (-3) 8 (by norm_num)).1 (by norm_num),
   by
    have h := (plClampTerm_spec 5000 8 (by norm_num)).2.1 (by norm_num)
    rw [h]; norm_num,
   ((plClampTerm_spec 10 8 (by norm_num)).2.2 (by norm_num) (by norm_num)).1.trans (by norm_num),
   ((plClampTerm_spec 10 8 (by norm_num)).2.2 (by norm_num) (by norm_num)).2⟩

/-- **C2**: for every voltage-offset magnitude `0 ≤ mV ≤ 250`, decoding the
encoded register field (`((0x800 - round(mV * 1.024)) << 21)` masked to 32
bits, decoded as `((0x800 - (raw >> 21)) & 0x7ff) / 1.024`) yields a value
within `1 / 1.024` mV of the original magnitude. -/
theorem uv_codec_roundtrip (mV : ℚ) (h0 : 0 ≤ mV) (h1 : mV ≤ 250) :
    |uvDecode (uvEncode mV) - mV| ≤ 1 / 1.024 := by
  have habs : |mV| = mV := abs_of_nonneg h0
  have hmul : (1.024 : ℚ) = 128 / 125 := by norm_num
  set x : ℚ := mV * 1.024 with hx
  have hx0 : 0 ≤ x := mul_nonneg h0 (by norm_num)
  have hx256 : x ≤ 256 := by rw [hx, hmul]; nlinarith
  have hmV : mV = x / 1.024 := by rw [hx]; field_simp
  have henc : uvEncode mV = ((⌊(2048 : ℚ) - x + 0.5⌋).toNat <<< 21) &&& 0xffffffff := by
    unfold uvEncode
    rw [habs, hx]
  set r : ℤ := ⌊(2048 : ℚ) - x + 0.5⌋ with hr
  have hrlb : (1792 : ℤ) ≤ r := by
    rw [hr]
    apply Int.le_floor.mpr
    push_cast
    linarith
  have hfl : (r : ℚ) ≤ 2048 - x + 0.5 := by rw [hr]; exact Int.floor_le _
  have hfl2 : 2048 - x + 0.5 < (r : ℚ) + 1 := by
    have h := Int.lt_floor_add_one ((2048 : ℚ) - x + 0.5)
    rw [← hr] at h
    exact h
  have hrub : r ≤ 2048 := by
    by_contra hcon
    push_neg at hcon
    have : ((2049 : ℤ) : ℚ) ≤ (r : ℚ) := by exact_mod_cast hcon
    push_cast at this
    linarith
  set n : ℕ := r.toNat with hn
  have hnr : (n : ℤ) = r := Int.toNat_of_nonneg (by omega)
  rcases eq_or_lt_of_le hrub with hcase | hcase
  · -- r = 2048 : the shifted field wraps to 0 under the 32-bit mask
    have hn2048 : n = 2048 := by omega
    have henc0 : uvEncode mV = 0 := by rw [henc, hn2048]; decide
    have ha : ((0 : ℕ) >>> 21) = 0 := by decide
    have hb : ((((0x800 : ℤ) - ((0 : ℕ) : ℤ)) % (2 ^ 64 : ℤ)).toNat &&& (0x800 - 1) : ℕ) = 0 := by
      decide
    have hdec0 : uvDecode 0 = 0 := by
      unfold uvDecode
      rw [ha, hb]
      norm_num
    have hxle : x ≤ 0.5 := by
      have h2048 : ((2048 : ℤ) : ℚ) ≤ (r : ℚ) := by exact_mod_cast le_of_eq hcase.symm
      push_cast at h2048
      linarith
    rw [henc0, hdec0]
    rw [abs_of_nonpos (by linarith)]
    have hmv2 : mV ≤ 125 / 256 := by
      rw [hmul] at hx
      have hxle' : mV * (128 / 125) ≤ 1 / 2 := by rw [← hx]; linarith
      linarith
    calc -(0 - mV) = mV := by ring
      _ ≤ 125 / 256 := hmv2
      _ ≤ 1 / 1.024 := by norm_num
  · -- r ≤ 2047 : the field is r · 2^21 and decodes to (2048 − r) / 1.024
    have hn2047 : n ≤ 2047 := by omega
    have hlt : n <<< 21 < 2 ^ 32 := by
      rw [Nat.shiftLeft_eq]
      calc n * 2 ^ 21 ≤ 2047 * 2 ^ 21 := Nat.mul_le_mul_right _ hn2047
        _ < 2 ^ 32 := by norm_num
    have henc1 : uvEncode mV = n * 2 ^ 21 := by
      rw [henc, show (0xffffffff : ℕ) = 2 ^ 32 - 1 by norm_num,
        Nat.and_pow_two_sub_one_eq_mod, Nat.mod_eq_of_lt hlt, Nat.shiftLeft_eq]
    have hshr : (n * 2 ^ 21) >>> 21 = n := by
      rw [Nat.shiftRight_eq_div_pow, Nat.mul_div_cancel _ (by norm_num)]
    have hd : ((0x800 : ℤ) - (n : ℤ)) % (2 ^ 64 : ℤ) = 2048 - (n : ℤ) := by
      rw [Int.emod_eq_of_lt (by omega) (by omega)]
    have hdnat : ((2048 : ℤ) - (n : ℤ)).toNat &&& (0x800 - 1) = 2048 - n := by
      have htn : ((2048 : ℤ) - (n : ℤ)).toNat = 2048 - n := by omega
      rw [htn, show ((0x800 : ℕ) - 1) = 2 ^ 11 - 1 by norm_num,
        Nat.and_pow_two_sub_one_eq_mod]
      apply Nat.mod_eq_of_lt
      omega
    have hdec1 : uvDecode (uvEncode mV) = ((2048 - n : ℕ) : ℚ) / 1.024 := by
      rw [henc1]
      unfold uvDecode
      rw [hshr, hd, hdnat]
    rw [hdec1]
    have hcast : ((2048 - n : ℕ) : ℚ) = 2048 - (n : ℚ) := by
      have h' : ((2048 - n : ℕ) : ℤ) = 2048 - (n : ℤ) := by omega
      exact_mod_cast h'
    have hnq : (n : ℚ) = (r : ℚ) := by exact_mod_cast hnr
    have hub : 2048 - (n : ℚ) - x ≤ 1 / 2 := by rw [hnq]; linarith
    have hlb : -(1 / 2) ≤ 2048 - (n : ℚ) - x := by rw [hnq]; linarith
    rw [hcast, hmV, div_sub_div_same]
    rw [abs_div, abs_of_nonneg (show (0 : ℚ) ≤ 1.024 by norm_num)]
    have habs2 : |2048 - (n : ℚ) - x| ≤ 1 / 2 := abs_le.mpr ⟨hlb, hub⟩
    have hden : (0 : ℚ) < 1.024 := by norm_num
    rw [hmul]
    linarith [habs2]

theorem uv_codec_roundtrip_witness :
    |uvDecode (uvEncode 50) - 50| ≤ 1 / 1.024 :=
  uv_codec_roundtrip 50 (by norm_num) (by norm_num)

-- The fold inside `undervolt` computes the conjunction of the per-target
-- outcomes and appends one report line per target, from any accumulator.
theorem undervolt_foldl_spec (write : Bool) (targets : List (UvTarget × UvEnv))
    (b : Bool) (ls : List String) :
    targets.foldl
      (fun acc t =>
        let r := undervolt_it write t.1 t.2
        (acc.1 && r.ok, acc.2 ++ [r.line])) (b, ls) =
      (b && (targets.all fun t => (undervolt_it write t.1 t.2).ok),
        ls ++ targets.map fun t => (undervolt_it write t.1 t.2).line) := by
  induction targets generalizing b ls with
  | nil => simp
  | cons hd tl ih =>
      simp only [List.foldl_cons, List.all_cons, List.map_cons, ih, Bool.and_assoc,
        List.append_assoc, List.singleton_append, List.cons_append, List.nil_append]

/-- **C7**: for every sequence of voltage-plane targets (each paired with
the outcomes of its own register accesses), `undervolt` processes every
target — it emits exactly one report line per target, in order — and its
returned flag equals the logical AND of the per-target outcomes; no failure
short-circuits the rest. -/
theorem undervolt_all_targets (write : Bool) (targets : List (UvTarget × UvEnv)) :
    (undervolt write targets).1 = (targets.all fun t => (undervolt_it write t.1 t.2).ok) ∧
    (undervolt write targets).2 = (targets.map fun t => (undervolt_it write t.1 t.2).line) ∧
    (undervolt write targets).2.length = targets.length := by
  unfold undervolt
  rw [undervolt_foldl_spec]
  refine ⟨by simp, by simp, by simp⟩

/-- **C6**: for a voltage-plane target processed with write requested, if
the write and the read-back both succeed but the read-back value's low 32
bits differ from the written value's low 32 bits, `undervolt_it` reports
failure for that target with the message "Values do not equal", and the
overall result of `undervolt` on any target list containing it is `false`. -/
theorem undervolt_values_do_not_equal (uv : UvTarget) (env : UvEnv)
    (targets : List (UvTarget × UvEnv)) (hmem : (uv, env) ∈ targets)
    (hw : env.wrOk = true) (hwr : env.wrRdOk = true) (hrd : env.rdOk = true)
    (hne : env.rdVal &&& 0xffffffff ≠
      (((0x8000001000000000 ||| ((uv.index <<< 40) % 2 ^ 64)) % 2 ^ 64 ||| 0x100000000 |||
        uvEncode uv.value) &&& 0xffffffff)) :
    undervolt_it true uv env =
      { ok := false,
        line := uv.title ++ " (" ++ toString uv.index ++ "): " ++ "Values do not equal" } ∧
    (undervolt true targets).1 = false := by
  have hit : undervolt_it true uv env =
      { ok := false,
        line := uv.title ++ " (" ++ toString uv.index ++ "): " ++ "Values do not equal" } := by
    unfold undervolt_it
    simp only [hw, hwr, hrd, Bool.not_true, Bool.false_or, Bool.and_self, Bool.not_false,
      Bool.true_and, Bool.or_self]
    rw [if_neg (by simp), if_pos ⟨trivial, hne⟩]
  refine ⟨hit, ?_⟩
  have hall : (undervolt true targets).1 =
      (targets.all fun t => (undervolt_it true t.1 t.2).ok) := by
    unfold undervolt
    rw [undervolt_foldl_spec]
    simp
  rw [hall]
  apply List.all_eq_false.mpr
  refine ⟨(uv, env), hmem, ?_⟩
  rw [hit]
  simp

theorem undervolt_values_do_not_equal_witness :
    undervolt_it true ⟨"CPU", 0, 50⟩ ⟨true, true, true, 0, "E"⟩ =
      { ok := false, line := "CPU" ++ " (" ++ toString (0 : ℕ) ++ "): " ++ "Values do not equal" } ∧
    (undervolt true [(⟨"CPU", 0, 50⟩, ⟨true, true, true, 0, "E"⟩)]).1 = false := by
  have henc : uvEncode 50 = 4188012544 := by
    unfold uvEncode
    rw [show ⌊(0x800 : ℚ) - |(50 : ℚ)| * 1.024 + 0.5⌋ = (1997 : ℤ) by norm_num]
    decide
  exact undervolt_values_do_not_equal ⟨"CPU", 0, 50⟩ ⟨true, true, true, 0, "E"⟩ _
    (by simp) rfl rfl rfl (by rw [henc]; decide)

/-- **C8**: for a domain whose register address and memory address are both
zero, with `apply` set (and the units-register read succeeding, so that no
earlier system error preempts the check), `power_limit` returns `false`
reporting the message "No method available", and attempts no register or
memory write for that domain. -/
theorem power_limit_no_method (write : Bool) (power : PlRequest) (env : PlEnv)
    (happly : power.apply = true) (hunits : env.rdUnitsOk = true) :
    (power_limit write 0 0 power env).ok = false ∧
    (power_limit write 0 0 power env).errstr = some "No method available" ∧
    (power_limit write 0 0 power env).writeMsrTried = false ∧
    (power_limit write 0 0 power env).writeMemTried = false := by
  unfold power_limit
  rw [happly]
  simp [hunits]

theorem power_limit_no_method_witness :
    (power_limit true 0 0 ⟨true, 10, 10, 1, 1⟩ ⟨true, 0, true, 0, true, 0, true, true, "E"⟩).ok
      = false ∧
    (power_limit true 0 0 ⟨true, 10, 10, 1, 1⟩ ⟨true, 0, true, 0, true, 0, true, true, "E"⟩).errstr
      = some "No method available" ∧
    (power_limit true 0 0 ⟨true, 10, 10, 1, 1⟩
      ⟨true, 0, true, 0, true, 0, true, true, "E"⟩).writeMsrTried = false ∧
    (power_limit true 0 0 ⟨true, 10, 10, 1, 1⟩
      ⟨true, 0, true, 0, true, 0, true, true, "E"⟩).writeMemTried = false :=
  power_limit_no_method true ⟨true, 10, 10, 1, 1⟩ _ rfl rfl

/-- **C9**: for a domain with register address `0` and a nonzero memory
address, with `apply` set, `power_limit` never attempts a register-file
read of the domain's limit register, and (when its reads succeed, so the
merge point is reached) uses the memory-path value as both logical copies
`msr_limit` and `mem_limit` for all downstream logic. -/
theorem power_limit_memory_path (write : Bool) (mem_addr : ℕ) (power : PlRequest) (env : PlEnv)
    (happly : power.apply = true) (hmem : mem_addr ≠ 0) :
    (power_limit write 0 mem_addr power env).readMsrTried = false ∧
    (env.rdMemOk = true → env.rdUnitsOk = true →
      (power_limit write 0 mem_addr power env).msrLimit = some env.memVal ∧
      (power_limit write 0 mem_addr power env).memLimit = some env.memVal) := by
  unfold power_limit
  rw [happly]
  constructor
  · simp [hmem]
    split <;> first | simp | (split <;> simp)
  · intro h1 h2
    simp [hmem, h1, h2]
    split <;> simp

theorem power_limit_memory_path_witness :
    (power_limit true 0 77 ⟨true, 10, 10, 1, 1⟩
      ⟨true, 3, true, 5, true, 0, true, true, "E"⟩).readMsrTried = false ∧
    (power_limit true 0 77 ⟨true, 10, 10, 1, 1⟩
      ⟨true, 3, true, 5, true, 0, true, true, "E"⟩).msrLimit = some 5 ∧
    (power_limit true 0 77 ⟨true, 10, 10, 1, 1⟩
      ⟨true, 3, true, 5, true, 0, true, true, "E"⟩).memLimit = some 5 := by
  have h := power_limit_memory_path true 77 ⟨true, 10, 10, 1, 1⟩
    ⟨true, 3, true, 5, true, 0, true, true, "E"⟩ rfl (by norm_num)
  exact ⟨h.1, (h.2 rfl rfl).1, (h.2 rfl rfl).2⟩

/-- **C10**: if the thermal-offset applier's write phase succeeds (or no
write was requested) but the report-stage re-read of the temperature
register fails, `tjoffset` still returns `true` — the report-stage read
failure never affects the returned flag — and the failure message is
formatted from the null error string (glibc prints `(null)`) rather than
from the system error description. -/
theorem tjoffset_report_read_failure (write : Bool) (offset : ℤ) (env : TjEnv)
    (hwr : write = true → env.rd1Ok = true ∧ env.wrOk = true)
    (hrd2 : env.rd2Ok = false) :
    (tjoffset write true offset true env).ok = true ∧
    (tjoffset write true offset true env).lines =
      ["Failed to read temperature offset: " ++ cstr none] := by
  unfold tjoffset
  cases write with
  | false => simp [hrd2]
  | true =>
      obtain ⟨h1, h2⟩ := hwr rfl
      simp [h1, h2, hrd2]

theorem tjoffset_report_read_failure_witness :
    (tjoffset true true 10 true ⟨true, 0, true, false, 0, "E"⟩).ok = true ∧
    (tjoffset true true 10 true ⟨true, 0, true, false, 0, "E"⟩).lines =
      ["Failed to read temperature offset: " ++ cstr none] :=
  tjoffset_report_read_failure true 10 ⟨true, 0, true, false, 0, "E"⟩
    (fun _ => ⟨rfl, rfl⟩) rfl

-- `pfsStep` in terms of the candidate views.
theorem pfsStep_eq (seconds : ℚ) (time_unit : ℕ) (acc : ℚ × ℤ) (i : ℕ) :
    pfsStep seconds time_unit acc i =
      if pfsE seconds time_unit i < 0x20 ∧ pfsQ seconds time_unit i < acc.1 then
        (pfsQ seconds time_unit i, pfsField i (pfsE seconds time_unit i))
      else acc := by
  unfold pfsStep pfsE pfsQ pfsUp pfsE0 pfsV
  by_cases hup : truncLog2 (seconds * (time_unit : ℚ) / (1 + (i : ℚ) / 4)) < 0x19 ∧
      2 < (seconds * (time_unit : ℚ) / (1 + (i : ℚ) / 4) /
        2 ^ truncLog2 (seconds * (time_unit : ℚ) / (1 + (i : ℚ) / 4))) ^ 2
  · simp only [if_pos hup]
    split_ifs <;> simp_all
  · simp only [if_neg hup]
    split_ifs <;> simp_all

-- One step never increases the carried `2 ^ last_diff`.
theorem pfsStep_fst_le (seconds : ℚ) (time_unit : ℕ) (acc : ℚ × ℤ) (i : ℕ) :
    (pfsStep seconds time_unit acc i).1 ≤ acc.1 := by
  rw [pfsStep_eq]
  split_ifs with h
  · exact le_of_lt h.2
  · exact le_refl _

-- After a step on a candidate that passes the exponent guard, the carried
-- `2 ^ last_diff` is at most the candidate's.
theorem pfsStep_fst_le_cand (seconds : ℚ) (time_unit : ℕ) (acc : ℚ × ℤ) (i : ℕ)
    (hg : pfsE seconds time_unit i < 0x20) :
    (pfsStep seconds time_unit acc i).1 ≤ pfsQ seconds time_unit i := by
  rw [pfsStep_eq]
  split_ifs with h
  · exact le_refl _
  · rcases not_and_or.mp h with h' | h'
    · exact absurd hg h'
    · exact le_of_not_lt h'

-- Each step either keeps the accumulator or selects candidate `i`.
theorem pfsStep_cases (seconds : ℚ) (time_unit : ℕ) (acc : ℚ × ℤ) (i : ℕ) :
    pfsStep seconds time_unit acc i = acc ∨
      (pfsE seconds time_unit i < 0x20 ∧
        pfsStep seconds time_unit acc i =
          (pfsQ seconds time_unit i, pfsField i (pfsE seconds time_unit i))) := by
  rw [pfsStep_eq]
  split_ifs with h
  · exact Or.inr ⟨h.1, rfl⟩
  · exact Or.inl rfl

-- The unsaturated run of `power_from_seconds` is the four-step fold.
theorem power_from_seconds_run (seconds : ℚ) (time_unit : ℕ)
    (h : ¬ ((2 : ℚ) ^ (0x1f : ℕ) ≤ seconds * (time_unit : ℚ) / 1.75)) :
    power_from_seconds seconds time_unit =
      (pfsStep seconds time_unit
        (pfsStep seconds time_unit
          (pfsStep seconds time_unit
            (pfsStep seconds time_unit (2, 0) 0) 1) 2) 3).2 := by
  unfold power_from_seconds
  rw [if_neg h]
  rfl

-- Every candidate value is at least 1 once `seconds * time_unit ≥ 1.75`.
theorem pfsV_ge_one (seconds : ℚ) (time_unit : ℕ) (i : ℕ) (hi : i < 4)
    (hw : 1.75 ≤ seconds * (time_unit : ℚ)) : 1 ≤ pfsV seconds time_unit i := by
  unfold pfsV
  have hiq : (i : ℚ) ≤ 3 := by exact_mod_cast Nat.le_of_lt_succ hi
  have hm : (0 : ℚ) < 1 + (i : ℚ) / 4 := by positivity
  rw [le_div_iff₀ hm]
  have h74 : (1.75 : ℚ) = 7 / 4 := by norm_num
  nlinarith [hw]

theorem pfsV_pos (seconds : ℚ) (time_unit : ℕ) (i : ℕ)
    (h : 0 < seconds * (time_unit : ℚ)) : 0 < pfsV seconds time_unit i := by
  unfold pfsV
  positivity

-- The truncated exponent of a candidate value `≥ 1` is its floor log, and
-- it is nonnegative.
theorem pfsE0_of_one_le (seconds : ℚ) (time_unit : ℕ) (i : ℕ)
    (h : 1 ≤ pfsV seconds time_unit i) :
    pfsE0 seconds time_unit i = Int.log 2 (pfsV seconds time_unit i) ∧
      0 ≤ pfsE0 seconds time_unit i := by
  have hpos : (0 : ℚ) < pfsV seconds time_unit i := lt_of_lt_of_le one_pos h
  constructor
  · unfold pfsE0 truncLog2
    rw [if_pos h]
  · unfold pfsE0 truncLog2
    rw [if_pos h]
    have : ((2 : ℕ) : ℚ) ^ (0 : ℤ) ≤ pfsV seconds time_unit i := by
      norm_num
      exact h
    exact (Int.zpow_le_iff_le_log one_lt_two hpos).mp this

-- Bounds on the carried `2 ^ diff` of a candidate whose value is `≥ 1`.
theorem pfsQ_ge_one (seconds : ℚ) (time_unit : ℕ) (i : ℕ)
    (h : 1 ≤ pfsV seconds time_unit i) : 1 ≤ pfsQ seconds time_unit i := by
  have hpos : (0 : ℚ) < pfsV seconds time_unit i := lt_of_lt_of_le one_pos h
  obtain ⟨hlog, _⟩ := pfsE0_of_one_le seconds time_unit i h
  unfold pfsQ
  split_ifs with hup
  · -- rounded up: `value < 2 ^ (e0 + 1)`
    rw [le_div_iff₀ hpos, one_mul]
    have := Int.lt_zpow_succ_log_self (R := ℚ) one_lt_two (pfsV seconds time_unit i)
    rw [← hlog] at this
    calc pfsV seconds time_unit i ≤ pfsV seconds time_unit i := le_refl _
      _ ≤ 2 ^ (pfsE0 seconds time_unit i + 1) := by
          have h2 : ((2 : ℕ) : ℚ) = (2 : ℚ) := by norm_num
          rw [← h2]
          exact le_of_lt this
  · -- not rounded: `2 ^ e0 ≤ value`
    have hz : (0 : ℚ) < 2 ^ pfsE0 seconds time_unit i := zpow_pos (by norm_num) _
    rw [le_div_iff₀ hz, one_mul]
    have := Int.zpow_log_le_self (R := ℚ) one_lt_two hpos
    rw [← hlog] at this
    have h2 : ((2 : ℕ) : ℚ) = (2 : ℚ) := by norm_num
    rw [← h2]
    exact this

-- The final exponent of a candidate with value `≥ 1` is nonnegative.
theorem pfsE_nonneg (seconds : ℚ) (time_unit : ℕ) (i : ℕ)
    (h : 1 ≤ pfsV seconds time_unit i) : 0 ≤ pfsE seconds time_unit i := by
  obtain ⟨_, h0⟩ := pfsE0_of_one_le seconds time_unit i h
  unfold pfsE
  split_ifs <;> omega

-- Packing a nonnegative in-range exponent is plain arithmetic.
theorem pfsField_nonneg_eq (i : ℕ) (hi : i < 4) (e : ℤ) (h0 : 0 ≤ e) (h1 : e < 32) :
    pfsField i e = ((64 * i + 2 * e.toNat : ℕ) : ℤ) := by
  unfold pfsField
  obtain ⟨n, rfl⟩ : ∃ n : ℕ, e = (n : ℤ) := ⟨e.toNat, (Int.toNat_of_nonneg h0).symm⟩
  have hn : n < 32 := by exact_mod_cast h1
  rw [show (6 : ℤ) = ((6 : ℕ) : ℤ) from rfl]
  rw [show ((n : ℤ)) <<< (1 : ℤ) = ((n : ℤ)) <<< ((1 : ℕ) : ℤ) from rfl]
  rw [int_ofNat_shiftLeft, int_ofNat_shiftLeft, int_ofNat_lor, Int.toNat_natCast]
  have hb : ∀ i' < 4, ∀ n' < 32, (i' <<< 6) ||| (n' <<< 1) = 64 * i' + 2 * n' := by decide
  exact_mod_cast congrArg (fun t : ℕ => (t : ℤ)) (hb i hi n hn)

-- A negative exponent packs to a negative field.
theorem pfsField_neg (i : ℕ) (e : ℤ) (h : e < 0) : pfsField i e < 0 := by
  unfold pfsField
  obtain ⟨m, rfl⟩ : ∃ m : ℕ, e = Int.negSucc m := by
    refine ⟨(-e - 1).toNat, ?_⟩
    rw [Int.negSucc_eq]
    have h2 : ((-e - 1).toNat : ℤ) = -e - 1 := Int.toNat_of_nonneg (by omega)
    omega
  rw [show ((Int.negSucc m)) <<< (1 : ℤ) = Int.negSucc (Nat.shiftLeft' true m 1) from rfl]
  rw [show (6 : ℤ) = ((6 : ℕ) : ℤ) from rfl, int_ofNat_shiftLeft, int_ofNat_lor_negSucc]
  exact Int.negSucc_lt_zero _

-- Decoding a packed field recovers grid value `2 ^ n · multiplier / u`.
theorem power_to_seconds_field (i n : ℕ) (hi : i < 4) (hn : n < 32) (u : ℕ) :
    power_to_seconds ((64 * i + 2 * n : ℕ) : ℤ) u =
      2 ^ (n : ℤ) * (1 + (i : ℚ) / 4) / (u : ℚ) := by
  unfold power_to_seconds
  rw [show (6 : ℤ) = ((6 : ℕ) : ℤ) from rfl]
  rw [show (((64 * i + 2 * n : ℕ) : ℤ)) >>> (1 : ℤ) =
    (((64 * i + 2 * n : ℕ) : ℤ)) >>> ((1 : ℕ) : ℤ) from rfl]
  rw [int_ofNat_shiftRight, int_ofNat_shiftRight]
  rw [show (0x3 : ℤ) = ((3 : ℕ) : ℤ) from rfl, show (0x1f : ℤ) = ((31 : ℕ) : ℤ) from rfl]
  rw [int_ofNat_land, int_ofNat_land]
  have hb : ∀ i' < 4, ∀ n' < 32,
      ((64 * i' + 2 * n') >>> 6) &&& 3 = i' ∧ ((64 * i' + 2 * n') >>> 1) &&& 31 = n' := by decide
  rw [(hb i hi n hn).1, (hb i hi n hn).2]
  push_cast
  ring

-- Decoding the field selected from candidate `i` lands at `seconds / q` (no
-- rounding up) or `seconds * q` (rounding up), `q` the candidate's `2 ^ diff`.
theorem power_to_seconds_cand (seconds : ℚ) (time_unit : ℕ) (i : ℕ) (hi : i < 4)
    (hu : 0 < time_unit) (hv : 1 ≤ pfsV seconds time_unit i)
    (hg : pfsE seconds time_unit i < 0x20) :
    power_to_seconds (pfsField i (pfsE seconds time_unit i)) time_unit =
        seconds / pfsQ seconds time_unit i ∨
      power_to_seconds (pfsField i (pfsE seconds time_unit i)) time_unit =
        seconds * pfsQ seconds time_unit i := by
  have he0 := pfsE_nonneg seconds time_unit i hv
  have hvpos : (0 : ℚ) < pfsV seconds time_unit i := lt_of_lt_of_le one_pos hv
  have hm : (0 : ℚ) < 1 + (i : ℚ) / 4 := by positivity
  have hu0 : ((time_unit : ℕ) : ℚ) ≠ 0 := Nat.cast_ne_zero.mpr hu.ne'
  have hupos : (0 : ℚ) < (time_unit : ℚ) := by positivity
  have hspos : (0 : ℚ) < seconds := by
    by_contra hcon
    push_neg at hcon
    have : pfsV seconds time_unit i ≤ 0 := by
      unfold pfsV
      apply div_nonpos_of_nonpos_of_nonneg
      · exact mul_nonpos_of_nonpos_of_nonneg hcon (le_of_lt hupos)
      · exact le_of_lt hm
    linarith
  have hV : pfsV seconds time_unit i = seconds * (time_unit : ℚ) / (1 + (i : ℚ) / 4) := rfl
  have hdec : power_to_seconds (pfsField i (pfsE seconds time_unit i)) time_unit =
      2 ^ pfsE seconds time_unit i * (1 + (i : ℚ) / 4) / (time_unit : ℚ) := by
    rw [pfsField_nonneg_eq i hi _ he0 hg,
      power_to_seconds_field i (pfsE seconds time_unit i).toNat hi (by omega) time_unit,
      Int.toNat_of_nonneg he0]
  by_cases hup : pfsUp seconds time_unit i
  · right
    have heq : pfsE seconds time_unit i = pfsE0 seconds time_unit i + 1 := by
      unfold pfsE
      rw [if_pos hup]
    have hq : pfsQ seconds time_unit i =
        2 ^ (pfsE0 seconds time_unit i + 1) / pfsV seconds time_unit i := by
      unfold pfsQ
      rw [if_pos hup]
    rw [hdec, heq, hq, hV]
    field_simp
    ring
  · left
    have heq : pfsE seconds time_unit i = pfsE0 seconds time_unit i := by
      unfold pfsE
      rw [if_neg hup]
    have hq : pfsQ seconds time_unit i =
        pfsV seconds time_unit i / 2 ^ pfsE0 seconds time_unit i := by
      unfold pfsQ
      rw [if_neg hup]
    have hzpos : (0 : ℚ) < 2 ^ pfsE0 seconds time_unit i := zpow_pos (by norm_num) _
    rw [hdec, heq, hq, hV]
    field_simp
    ring

-- A candidate sitting in `[2^k, 2^k · 5/4)` is kept un-rounded, passes the
-- guard, and carries `2 ^ diff < 5/4`.
theorem pfs_cand_good (seconds : ℚ) (time_unit : ℕ) (i : ℕ) (k : ℤ)
    (hk0 : 0 ≤ k) (hk32 : k < 32)
    (hlow : (2 : ℚ) ^ k ≤ pfsV seconds time_unit i)
    (hup : pfsV seconds time_unit i < (2 : ℚ) ^ k * (5 / 4)) :
    pfsE seconds time_unit i < 0x20 ∧ pfsQ seconds time_unit i < 5 / 4 := by
  have hP : (0 : ℚ) < 2 ^ k := zpow_pos (by norm_num) _
  have hv1 : 1 ≤ pfsV seconds time_unit i :=
    le_trans (one_le_zpow₀ one_le_two hk0) hlow
  have hk1 : pfsV seconds time_unit i < (2 : ℚ) ^ (k + 1) := by
    have : (2 : ℚ) ^ (k + 1) = 2 ^ k * 2 := by
      rw [zpow_add_one₀ (by norm_num : (2 : ℚ) ≠ 0)]
    rw [this]
    linarith
  have he0 : pfsE0 seconds time_unit i = k := by
    unfold pfsE0
    exact truncLog2_eq_of_one_le hv1 hlow hk1
  have hq0 : pfsV seconds time_unit i / 2 ^ k < 5 / 4 := by
    rw [div_lt_iff₀ hP]
    linarith
  have hq0' : 1 ≤ pfsV seconds time_unit i / 2 ^ k := by
    rw [le_div_iff₀ hP]
    linarith
  have hnup : ¬ pfsUp seconds time_unit i := by
    unfold pfsUp
    rw [he0]
    rintro ⟨-, habs⟩
    nlinarith
  constructor
  · unfold pfsE
    rw [if_neg hnup, he0]
    omega
  · unfold pfsQ
    rw [if_neg hnup, he0]
    exact hq0

-- Below the saturation threshold some candidate is un-rounded with
-- `2 ^ diff < 5/4`.
theorem pfs_bracket (seconds : ℚ) (time_unit : ℕ)
    (hlo : 1.75 ≤ seconds * (time_unit : ℚ))
    (hhi : seconds * (time_unit : ℚ) / 1.75 < 2 ^ (0x1f : ℕ)) :
    ∃ i, i < 4 ∧ pfsE seconds time_unit i < 0x20 ∧ pfsQ seconds time_unit i < 5 / 4 := by
  set w : ℚ := seconds * (time_unit : ℚ) with hwdef
  have hw1 : (1 : ℚ) ≤ w := by linarith [show (1 : ℚ) ≤ 1.75 by norm_num]
  have hwpos : (0 : ℚ) < w := lt_of_lt_of_le one_pos hw1
  set k : ℤ := Int.log 2 w with hkdef
  have hcast : (((2 : ℕ) : ℚ)) = (2 : ℚ) := by norm_num
  have hk0 : 0 ≤ k := by
    rw [hkdef]
    apply (Int.zpow_le_iff_le_log one_lt_two hwpos).mp
    rw [hcast]
    norm_num
    exact hw1
  have hklow : (2 : ℚ) ^ k ≤ w := by
    have := Int.zpow_log_le_self (R := ℚ) one_lt_two hwpos
    rw [hcast] at this
    exact this
  have hkup : w < (2 : ℚ) ^ (k + 1) := by
    have := Int.lt_zpow_succ_log_self (R := ℚ) one_lt_two w
    rw [hcast] at this
    exact this
  have hk32 : k < 32 := by
    rw [hkdef]
    have hw32 : w < ((2 : ℕ) : ℚ) ^ (32 : ℤ) := by
      rw [hcast]
      have h175 : (0 : ℚ) < 1.75 := by norm_num
      rw [div_lt_iff₀ h175] at hhi
      calc w < 2 ^ (0x1f : ℕ) * 1.75 := hhi
        _ < (2 : ℚ) ^ (32 : ℤ) := by norm_num
    exact (Int.lt_zpow_iff_log_lt one_lt_two hwpos).mp hw32
  have hP : (0 : ℚ) < 2 ^ k := zpow_pos (by norm_num) _
  have h2k : (2 : ℚ) ^ (k + 1) = 2 ^ k * 2 := zpow_add_one₀ (by norm_num) k
  rcases lt_or_le w (2 ^ k * (5 / 4)) with h1 | h1
  · refine ⟨0, by norm_num, ?_⟩
    have hV : pfsV seconds time_unit 0 = w := by
      unfold pfsV
      norm_num
    exact pfs_cand_good seconds time_unit 0 k hk0 hk32 (by rw [hV]; exact hklow)
      (by rw [hV]; exact h1)
  · rcases lt_or_le w (2 ^ k * (3 / 2)) with h2 | h2
    · refine ⟨1, by norm_num, ?_⟩
      have hV : pfsV seconds time_unit 1 = w / (5 / 4) := by
        unfold pfsV
        norm_num
      refine pfs_cand_good seconds time_unit 1 k hk0 hk32 ?_ ?_ <;> rw [hV]
      · rw [le_div_iff₀ (by norm_num : (0 : ℚ) < 5 / 4)]
        linarith
      · rw [div_lt_iff₀ (by norm_num : (0 : ℚ) < 5 / 4)]
        linarith
    · rcases lt_or_le w (2 ^ k * (7 / 4)) with h3 | h3
      · refine ⟨2, by norm_num, ?_⟩
        have hV : pfsV seconds time_unit 2 = w / (3 / 2) := by
          unfold pfsV
          norm_num
        refine pfs_cand_good seconds time_unit 2 k hk0 hk32 ?_ ?_ <;> rw [hV]
        · rw [le_div_iff₀ (by norm_num : (0 : ℚ) < 3 / 2)]
          linarith
        · rw [div_lt_iff₀ (by norm_num : (0 : ℚ) < 3 / 2)]
          linarith
      · refine ⟨3, by norm_num, ?_⟩
        have hV : pfsV seconds time_unit 3 = w / (7 / 4) := by
          unfold pfsV
          norm_num
        refine pfs_cand_good seconds time_unit 3 k hk0 hk32 ?_ ?_ <;> rw [hV]
        · rw [le_div_iff₀ (by norm_num : (0 : ℚ) < 7 / 4)]
          linarith
        · rw [div_lt_iff₀ (by norm_num : (0 : ℚ) < 7 / 4)]
          linarith

-- The unsaturated run returns a candidate field whose `2 ^ diff` beats the
-- bracketing candidate's bound `5/4`.
theorem power_from_seconds_selects (seconds : ℚ) (time_unit : ℕ)
    (hlo : 1.75 ≤ seconds * (time_unit : ℚ))
    (hhi : seconds * (time_unit : ℚ) / 1.75 < 2 ^ (0x1f : ℕ)) :
    ∃ j, j < 4 ∧ pfsE seconds time_unit j < 0x20 ∧
      power_from_seconds seconds time_unit = pfsField j (pfsE seconds time_unit j) ∧
      pfsQ seconds time_unit j < 5 / 4 := by
  have hnot : ¬ ((2 : ℚ) ^ (0x1f : ℕ) ≤ seconds * (time_unit : ℚ) / 1.75) := not_le.mpr hhi
  obtain ⟨i, hi4, hig, hiq⟩ := pfs_bracket seconds time_unit hlo hhi
  set r0 : ℚ × ℤ := ((2 : ℚ), (0 : ℤ)) with hr0
  set r1 := pfsStep seconds time_unit r0 0 with hr1
  set r2 := pfsStep seconds time_unit r1 1 with hr2
  set r3 := pfsStep seconds time_unit r2 2 with hr3
  set r4 := pfsStep seconds time_unit r3 3 with hr4
  have hrun : power_from_seconds seconds time_unit = r4.2 :=
    power_from_seconds_run seconds time_unit hnot
  have hle : r4.1 ≤ pfsQ seconds time_unit i := by
    interval_cases i
    · calc r4.1 ≤ r3.1 := pfsStep_fst_le seconds time_unit r3 3
        _ ≤ r2.1 := pfsStep_fst_le seconds time_unit r2 2
        _ ≤ r1.1 := pfsStep_fst_le seconds time_unit r1 1
        _ ≤ pfsQ seconds time_unit 0 := pfsStep_fst_le_cand seconds time_unit r0 0 hig
    · calc r4.1 ≤ r3.1 := pfsStep_fst_le seconds time_unit r3 3
        _ ≤ r2.1 := pfsStep_fst_le seconds time_unit r2 2
        _ ≤ pfsQ seconds time_unit 1 := pfsStep_fst_le_cand seconds time_unit r1 1 hig
    · calc r4.1 ≤ r3.1 := pfsStep_fst_le seconds time_unit r3 3
        _ ≤ pfsQ seconds time_unit 2 := pfsStep_fst_le_cand seconds time_unit r2 2 hig
    · exact pfsStep_fst_le_cand seconds time_unit r3 3 hig
  have hstep : ∀ (acc : ℚ × ℤ) (m : ℕ), m < 4 →
      (acc = r0 ∨ ∃ j, j < 4 ∧ pfsE seconds time_unit j < 0x20 ∧
        acc = (pfsQ seconds time_unit j, pfsField j (pfsE seconds time_unit j))) →
      (pfsStep seconds time_unit acc m = r0 ∨
        ∃ j, j < 4 ∧ pfsE seconds time_unit j < 0x20 ∧
          pfsStep seconds time_unit acc m =
            (pfsQ seconds time_unit j, pfsField j (pfsE seconds time_unit j))) := by
    intro acc m hm hPacc
    rcases pfsStep_cases seconds time_unit acc m with h | ⟨hg', h⟩
    · rw [h]
      exact hPacc
    · exact Or.inr ⟨m, hm, hg', h⟩
  have hP4 : r4 = r0 ∨ ∃ j, j < 4 ∧ pfsE seconds time_unit j < 0x20 ∧
      r4 = (pfsQ seconds time_unit j, pfsField j (pfsE seconds time_unit j)) := by
    apply hstep r3 3 (by norm_num)
    apply hstep r2 2 (by norm_num)
    apply hstep r1 1 (by norm_num)
    apply hstep r0 0 (by norm_num)
    exact Or.inl rfl
  rcases hP4 with h | ⟨j, hj4, hjg, hjeq⟩
  · exfalso
    have : r4.1 = 2 := by rw [h]
    rw [this] at hle
    linarith
  · have hq : r4.1 = pfsQ seconds time_unit j := by rw [hjeq]
    refine ⟨j, hj4, hjg, ?_, ?_⟩
    · rw [hrun, hjeq]
    · rw [← hq]
      exact lt_of_le_of_lt hle hiq

/-- **C3** (amended): for every `time_unit ∈ {1, 2, 4, …, 2^15}` and every
seconds value with `1.75 ≤ seconds * time_unit` (every loop candidate at
least 1, so the truncated exponents are nonnegative) below the saturation
threshold (`seconds * time_unit / 1.75 < 2^31`), the roundtrip
`power_to_seconds (power_from_seconds s u) u` lands within one grid step of
`s`: strictly between `(4/5) · s` and `(5/4) · s` (consecutive grid values
are at most a factor `5/4` apart). -/
theorem power_time_roundtrip (seconds : ℚ) (time_unit : ℕ)
    (hu : ∃ k, k ≤ 15 ∧ time_unit = 2 ^ k)
    (hlo : 1.75 ≤ seconds * (time_unit : ℚ))
    (hhi : seconds * (time_unit : ℚ) / 1.75 < 2 ^ (0x1f : ℕ)) :
    4 / 5 * seconds < power_to_seconds (power_from_seconds seconds time_unit) time_unit ∧
    power_to_seconds (power_from_seconds seconds time_unit) time_unit < 5 / 4 * seconds := by
  have hupos : 0 < time_unit := by
    obtain ⟨k, -, rfl⟩ := hu
    positivity
  have huq : (0 : ℚ) < (time_unit : ℚ) := by exact_mod_cast hupos
  have hspos : (0 : ℚ) < seconds := by
    by_contra h
    push_neg at h
    have : seconds * (time_unit : ℚ) ≤ 0 :=
      mul_nonpos_of_nonpos_of_nonneg h (le_of_lt huq)
    have h175 : (0 : ℚ) < 1.75 := by norm_num
    linarith
  obtain ⟨j, hj4, hjg, hjfield, hjq⟩ := power_from_seconds_selects seconds time_unit hlo hhi
  have hjv : 1 ≤ pfsV seconds time_unit j := pfsV_ge_one seconds time_unit j hj4 hlo
  have hq1 : 1 ≤ pfsQ seconds time_unit j := pfsQ_ge_one seconds time_unit j hjv
  have hqpos : (0 : ℚ) < pfsQ seconds time_unit j := lt_of_lt_of_le one_pos hq1
  rcases power_to_seconds_cand seconds time_unit j hj4 hupos hjv hjg with hdec | hdec
  · rw [hjfield, hdec]
    constructor
    · rw [lt_div_iff₀ hqpos]
      nlinarith
    · have hd : seconds / pfsQ seconds time_unit j ≤ seconds :=
        div_le_self (le_of_lt hspos) hq1
      nlinarith
  · rw [hjfield, hdec]
    constructor
    · nlinarith
    · nlinarith

theorem power_time_roundtrip_witness :
    4 / 5 * (2 : ℚ) < power_to_seconds (power_from_seconds 2 1) 1 ∧
    power_to_seconds (power_from_seconds 2 1) 1 < 5 / 4 * (2 : ℚ) :=
  power_time_roundtrip 2 1 ⟨0, by norm_num, by norm_num⟩ (by norm_num) (by norm_num)

-- Any result of `power_from_seconds` is the sentinel, the initial 0, or a
-- guarded candidate field.
theorem power_from_seconds_shape (seconds : ℚ) (time_unit : ℕ) :
    power_from_seconds seconds time_unit = 0xfe ∨
    power_from_seconds seconds time_unit = 0 ∨
      ∃ i, i < 4 ∧ pfsE seconds time_unit i < 0x20 ∧
        power_from_seconds seconds time_unit = pfsField i (pfsE seconds time_unit i) := by
  by_cases h : (2 : ℚ) ^ (0x1f : ℕ) ≤ seconds * (time_unit : ℚ) / 1.75
  · left
    unfold power_from_seconds
    rw [if_pos h]
  · right
    rw [power_from_seconds_run seconds time_unit h]
    have hstep : ∀ (acc : ℚ × ℤ) (m : ℕ), m < 4 →
        (acc.2 = 0 ∨ ∃ i, i < 4 ∧ pfsE seconds time_unit i < 0x20 ∧
          acc.2 = pfsField i (pfsE seconds time_unit i)) →
        ((pfsStep seconds time_unit acc m).2 = 0 ∨
          ∃ i, i < 4 ∧ pfsE seconds time_unit i < 0x20 ∧
            (pfsStep seconds time_unit acc m).2 = pfsField i (pfsE seconds time_unit i)) := by
      intro acc m hm hPacc
      rcases pfsStep_cases seconds time_unit acc m with h' | ⟨hg', h'⟩
      · rw [h']
        exact hPacc
      · right
        exact ⟨m, hm, hg', by rw [h']⟩
    apply hstep _ 3 (by norm_num)
    apply hstep _ 2 (by norm_num)
    apply hstep _ 1 (by norm_num)
    apply hstep _ 0 (by norm_num)
    exact Or.inl rfl

-- A nonnegative `power_from_seconds` result fits the 8-bit field with a
-- clear lowest bit.
theorem power_from_seconds_bounds (seconds : ℚ) (time_unit : ℕ)
    (h : 0 ≤ power_from_seconds seconds time_unit) :
    power_from_seconds seconds time_unit ≤ 0xfe ∧
      power_from_seconds seconds time_unit % 2 = 0 := by
  rcases power_from_seconds_shape seconds time_unit with h1 | h1 | ⟨i, hi4, hig, h1⟩
  · rw [h1]
    norm_num
  · rw [h1]
    norm_num
  · have he0 : 0 ≤ pfsE seconds time_unit i := by
      by_contra hc
      push_neg at hc
      have := pfsField_neg i _ hc
      rw [← h1] at this
      omega
    rw [h1, pfsField_nonneg_eq i hi4 _ he0 hig]
    have hn : (pfsE seconds time_unit i).toNat < 32 := by omega
    constructor
    · have : (64 * i + 2 * (pfsE seconds time_unit i).toNat : ℕ) ≤ 254 := by omega
      exact_mod_cast this
    · omega

-- Clamped power requests always fit the 15-bit field.
theorem plClampTerm_bounds (request : ℤ) (power_unit : ℕ) :
    0 ≤ plClampTerm request power_unit ∧ plClampTerm request power_unit ≤ 0x7fff := by
  unfold plClampTerm
  by_cases h1 : request < 0
  · rw [if_pos h1]
    norm_num
  · rw [if_neg h1]
    push_neg at h1
    by_cases h2 : 0x7fff / (power_unit : ℤ) < request
    · rw [if_pos h2]
      refine ⟨Int.ediv_nonneg (by norm_num) (by positivity), ?_⟩
      exact Int.ediv_le_self _ (by norm_num)
    · rw [if_neg h2]
      push_neg at h2
      constructor
      · exact mul_nonneg h1 (by positivity)
      · rcases Nat.eq_zero_or_pos power_unit with h0 | h0
        · rw [h0]
          norm_num
        · have hpuq : (0 : ℤ) < (power_unit : ℤ) := by exact_mod_cast h0
          calc request * (power_unit : ℤ)
              ≤ 0x7fff / (power_unit : ℤ) * (power_unit : ℤ) :=
                mul_le_mul_of_nonneg_right h2 (le_of_lt hpuq)
            _ ≤ 0x7fff := Int.ediv_mul_le _ (ne_of_gt hpuq)

-- A small even field has no bit inside a mask whose bits 1–7 are clear.
theorem even_small_and_eq_zero (t c : ℕ) (ht : t ≤ 0xfe) (hev : t % 2 = 0)
    (hc : (c >>> 1) % 2 ^ 7 = 0) : t &&& c = 0 := by
  have hts : t = (t / 2) <<< 1 := by
    rw [Nat.shiftLeft_eq, pow_one]
    omega
  rw [hts, shiftLeft_and, and_eq_zero_of_bounds (t / 2) (c >>> 1) 7 (by omega) hc,
    Nat.zero_shiftLeft]

-- Splicing a masked field on top of `v` leaves the `M` bits of `v` alone.
theorem splice_and_eq (v T m M : ℕ) (hT : T &&& M = 0) (hMm : M &&& m = M) :
    ((v &&& m) ||| T) &&& M = v &&& M := by
  rw [or_and_of_disjoint _ _ _ hT, and_and_of_subset _ _ _ hMm]

-- The power-field splice of lines 181–188 leaves the `M` bits of the
-- pre-write value alone, for any mask inside `0xffff8000ffff8000` with no
-- bit in the two 15-bit fields.
theorem power_splice_and_eq (pre st lt M : ℕ) (hst : st < 2 ^ 15) (hlt : lt < 2 ^ 15)
    (hMA : M &&& 0xffff8000ffff8000 = M) (h32 : (M >>> 32) % 2 ^ 15 = 0)
    (h0 : M % 2 ^ 15 = 0) :
    ((pre &&& 0xffff8000ffff8000) ||| (st <<< 32) ||| lt) &&& M = pre &&& M := by
  rw [or_and_of_disjoint _ _ _ (and_eq_zero_of_bounds lt M 15 hlt h0)]
  rw [or_and_of_disjoint _ _ _ (by
    rw [shiftLeft_and, and_eq_zero_of_bounds st (M >>> 32) 15 hst h32, Nat.zero_shiftLeft])]
  exact and_and_of_subset _ _ _ hMA

-- Bits 63 (lock), 47 and 15 (enable flags) always belong to the preserved
-- mask.
theorem plPreservedMask_bits (stw ltw : ℚ) :
    (plPreservedMask stw ltw).testBit 63 = true ∧
    (plPreservedMask stw ltw).testBit 47 = true ∧
    (plPreservedMask stw ltw).testBit 15 = true := by
  unfold plPreservedMask
  split_ifs <;> exact ⟨by decide, by decide, by decide⟩

/-- **C5** (amended): for every pre-write register value and power-limit
write request whose positive time windows encode to nonnegative raw fields
(the window is not so small that the search loop's exponent goes negative),
the computed write value agrees with the pre-write value on every bit of
the preserved mask — outside the two 15-bit power fields
(`0xffff8000ffff8000`) and outside the spliced time-window fields
(`0xff01ffffffffffff` / `0xffffffffff01ffff`, each applied only when its
window is positive); in particular the enable flags (bits 47 and 15) and
the lock bit (bit 63) are unchanged. -/
theorem plWriteValue_preserves (msr_limit power_unit time_unit : ℕ) (st lt : ℤ)
    (stw ltw : ℚ)
    (hstw : 0 < stw → 0 ≤ power_from_seconds stw time_unit)
    (hltw : 0 < ltw → 0 ≤ power_from_seconds ltw time_unit) :
    plWriteValue msr_limit power_unit time_unit st lt stw ltw &&&
        plPreservedMask stw ltw = msr_limit &&& plPreservedMask stw ltw ∧
    Nat.testBit (plWriteValue msr_limit power_unit time_unit st lt stw ltw) 63 =
      Nat.testBit msr_limit 63 ∧
    Nat.testBit (plWriteValue msr_limit power_unit time_unit st lt stw ltw) 47 =
      Nat.testBit msr_limit 47 ∧
    Nat.testBit (plWriteValue msr_limit power_unit time_unit st lt stw ltw) 15 =
      Nat.testBit msr_limit 15 := by
  have hst' : (plClampTerm st power_unit).toNat < 2 ^ 15 := by
    have := plClampTerm_bounds st power_unit
    omega
  have hlt' : (plClampTerm lt power_unit).toNat < 2 ^ 15 := by
    have := plClampTerm_bounds lt power_unit
    omega
  have htime : ∀ w : ℚ, 0 ≤ power_from_seconds w time_unit →
      ((power_from_seconds w time_unit % (2 ^ 64 : ℤ)).toNat ≤ 0xfe ∧
        (power_from_seconds w time_unit % (2 ^ 64 : ℤ)).toNat % 2 = 0) := by
    intro w hw
    obtain ⟨hb, he⟩ := power_from_seconds_bounds w time_unit hw
    rw [Int.emod_eq_of_lt hw (by omega)]
    omega
  have hmain : plWriteValue msr_limit power_unit time_unit st lt stw ltw &&&
      plPreservedMask stw ltw = msr_limit &&& plPreservedMask stw ltw := by
    by_cases hs : 0 < stw <;> by_cases hl : 0 < ltw <;>
      simp only [plWriteValue, plPreservedMask, hs, hl, if_true, if_false,
        eq_self_iff_true, ite_true, ite_false, if_pos, if_neg, not_false_iff]
    · -- both windows spliced
      obtain ⟨ht1, he1⟩ := htime stw (hstw hs)
      obtain ⟨ht2, he2⟩ := htime ltw (hltw hl)
      rw [Nat.mod_eq_of_lt (by
        rw [Nat.shiftLeft_eq]
        calc _ ≤ 0xfe * 2 ^ 48 := Nat.mul_le_mul_right _ ht1
          _ < 2 ^ 64 := by norm_num)]
      rw [Nat.mod_eq_of_lt (by
        rw [Nat.shiftLeft_eq]
        calc _ ≤ 0xfe * 2 ^ 16 := Nat.mul_le_mul_right _ ht2
          _ < 2 ^ 64 := by norm_num)]
      rw [splice_and_eq _ _ _ _ (by
          rw [shiftLeft_and,
            even_small_and_eq_zero _ _ ht2 he2 (by decide), Nat.zero_shiftLeft])
        (by decide)]
      rw [splice_and_eq _ _ _ _ (by
          rw [shiftLeft_and,
            even_small_and_eq_zero _ _ ht1 he1 (by decide), Nat.zero_shiftLeft])
        (by decide)]
      exact power_splice_and_eq _ _ _ _ hst' hlt' (by decide) (by decide) (by decide)
    · -- only the short window spliced
      obtain ⟨ht1, he1⟩ := htime stw (hstw hs)
      rw [Nat.mod_eq_of_lt (by
        rw [Nat.shiftLeft_eq]
        calc _ ≤ 0xfe * 2 ^ 48 := Nat.mul_le_mul_right _ ht1
          _ < 2 ^ 64 := by norm_num)]
      rw [splice_and_eq _ _ _ _ (by
          rw [shiftLeft_and,
            even_small_and_eq_zero _ _ ht1 he1 (by decide), Nat.zero_shiftLeft])
        (by decide)]
      exact power_splice_and_eq _ _ _ _ hst' hlt' (by decide) (by decide) (by decide)
    · -- only the long window spliced
      obtain ⟨ht2, he2⟩ := htime ltw (hltw hl)
      rw [Nat.mod_eq_of_lt (by
        rw [Nat.shiftLeft_eq]
        calc _ ≤ 0xfe * 2 ^ 16 := Nat.mul_le_mul_right _ ht2
          _ < 2 ^ 64 := by norm_num)]
      rw [splice_and_eq _ _ _ _ (by
          rw [shiftLeft_and,
            even_small_and_eq_zero _ _ ht2 he2 (by decide), Nat.zero_shiftLeft])
        (by decide)]
      exact power_splice_and_eq _ _ _ _ hst' hlt' (by decide) (by decide) (by decide)
    · -- no window spliced
      exact power_splice_and_eq _ _ _ _ hst' hlt' (by decide) (by decide) (by decide)
  have hbit : ∀ b, (plPreservedMask stw ltw).testBit b = true →
      Nat.testBit (plWriteValue msr_limit power_unit time_unit st lt stw ltw) b =
        Nat.testBit msr_limit b := by
    intro b hb
    have h := congrArg (fun t => Nat.testBit t b) hmain
    simpa [Nat.testBit_and, hb] using h
  obtain ⟨h63, h47, h15⟩ := plPreservedMask_bits stw ltw
  exact ⟨hmain, hbit 63 h63, hbit 47 h47, hbit 15 h15⟩

-- Packing the exponent −1 gives −2 whatever the multiplier index: the two
-- two's-complement or-operands already share every bit of −2.
theorem pfsField_negone (i : ℕ) (hi : i < 4) : pfsField i (-1) = -2 := by
  unfold pfsField
  rw [show ((-1 : ℤ)) <<< (1 : ℤ) = Int.negSucc 1 from rfl,
    show (6 : ℤ) = ((6 : ℕ) : ℤ) from rfl, int_ofNat_shiftLeft, int_ofNat_lor_negSucc,
    show (-2 : ℤ) = Int.negSucc 1 from rfl]
  congr 1
  interval_cases i <;> simp [Nat.ldiff, Nat.bitwise]

-- Concrete run: one second at time unit 1 encodes to field 0xc0
-- (multiplier 1.75, exponent 0), not to the exact grid field 0.
theorem pfs_one_one : power_from_seconds 1 1 = 0xc0 := by
  have hV0 : pfsV 1 1 0 = 1 := by unfold pfsV; norm_num
  have hV1 : pfsV 1 1 1 = 4 / 5 := by unfold pfsV; norm_num
  have hV2 : pfsV 1 1 2 = 2 / 3 := by unfold pfsV; norm_num
  have hV3 : pfsV 1 1 3 = 4 / 7 := by unfold pfsV; norm_num
  have hE00 : pfsE0 1 1 0 = 0 := by
    unfold pfsE0
    rw [hV0]
    exact truncLog2_eq_of_one_le (by norm_num) (by norm_num) (by norm_num)
  have hE01 : pfsE0 1 1 1 = 0 := by
    unfold pfsE0
    rw [hV1]
    exact truncLog2_eq_of_lt_one (by norm_num) (by norm_num) (by norm_num) (by norm_num)
  have hE02 : pfsE0 1 1 2 = 0 := by
    unfold pfsE0
    rw [hV2]
    exact truncLog2_eq_of_lt_one (by norm_num) (by norm_num) (by norm_num) (by norm_num)
  have hE03 : pfsE0 1 1 3 = 0 := by
    unfold pfsE0
    rw [hV3]
    exact truncLog2_eq_of_lt_one (by norm_num) (by norm_num) (by norm_num) (by norm_num)
  have hU0 : ¬ pfsUp 1 1 0 := by
    unfold pfsUp
    rw [hE00, hV0]
    rintro ⟨-, h⟩
    norm_num at h
  have hU1 : ¬ pfsUp 1 1 1 := by
    unfold pfsUp
    rw [hE01, hV1]
    rintro ⟨-, h⟩
    norm_num at h
  have hU2 : ¬ pfsUp 1 1 2 := by
    unfold pfsUp
    rw [hE02, hV2]
    rintro ⟨-, h⟩
    norm_num at h
  have hU3 : ¬ pfsUp 1 1 3 := by
    unfold pfsUp
    rw [hE03, hV3]
    rintro ⟨-, h⟩
    norm_num at h
  have hE_0 : pfsE 1 1 0 = 0 := by unfold pfsE; rw [if_neg hU0, hE00]
  have hE_1 : pfsE 1 1 1 = 0 := by unfold pfsE; rw [if_neg hU1, hE01]
  have hE_2 : pfsE 1 1 2 = 0 := by unfold pfsE; rw [if_neg hU2, hE02]
  have hE_3 : pfsE 1 1 3 = 0 := by unfold pfsE; rw [if_neg hU3, hE03]
  have hQ_0 : pfsQ 1 1 0 = 1 := by unfold pfsQ; rw [if_neg hU0, hE00, hV0]; norm_num
  have hQ_1 : pfsQ 1 1 1 = 4 / 5 := by unfold pfsQ; rw [if_neg hU1, hE01, hV1]; norm_num
  have hQ_2 : pfsQ 1 1 2 = 2 / 3 := by unfold pfsQ; rw [if_neg hU2, hE02, hV2]; norm_num
  have hQ_3 : pfsQ 1 1 3 = 4 / 7 := by unfold pfsQ; rw [if_neg hU3, hE03, hV3]; norm_num
  have s1 : pfsStep 1 1 ((2 : ℚ), (0 : ℤ)) 0 = (1, pfsField 0 0) := by
    rw [pfsStep_eq, if_pos ⟨by rw [hE_0]; norm_num, by rw [hQ_0]; norm_num⟩, hQ_0, hE_0]
  have s2 : pfsStep 1 1 ((1 : ℚ), pfsField 0 0) 1 = (4 / 5, pfsField 1 0) := by
    rw [pfsStep_eq, if_pos ⟨by rw [hE_1]; norm_num, by rw [hQ_1]; norm_num⟩, hQ_1, hE_1]
  have s3 : pfsStep 1 1 ((4 / 5 : ℚ), pfsField 1 0) 2 = (2 / 3, pfsField 2 0) := by
    rw [pfsStep_eq, if_pos ⟨by rw [hE_2]; norm_num, by rw [hQ_2]; norm_num⟩, hQ_2, hE_2]
  have s4 : pfsStep 1 1 ((2 / 3 : ℚ), pfsField 2 0) 3 = (4 / 7, pfsField 3 0) := by
    rw [pfsStep_eq, if_pos ⟨by rw [hE_3]; norm_num, by rw [hQ_3]; norm_num⟩, hQ_3, hE_3]
  rw [power_from_seconds_run 1 1 (by norm_num), s1, s2, s3, s4]
  rw [show pfsField 3 0 = ((64 * 3 + 2 * (0 : ℤ).toNat : ℕ) : ℤ) from
    pfsField_nonneg_eq 3 (by norm_num) 0 (by norm_num) (by norm_num)]
  norm_num

-- Concrete run: half a second at time unit 1 — every candidate truncates
-- to exponent −1, and the packed field is the two's-complement −2.
theorem pfs_half_one : power_from_seconds (1 / 2) 1 = -2 := by
  have hV0 : pfsV (1 / 2) 1 0 = 1 / 2 := by unfold pfsV; norm_num
  have hV1 : pfsV (1 / 2) 1 1 = 2 / 5 := by unfold pfsV; norm_num
  have hV2 : pfsV (1 / 2) 1 2 = 1 / 3 := by unfold pfsV; norm_num
  have hV3 : pfsV (1 / 2) 1 3 = 2 / 7 := by unfold pfsV; norm_num
  have hE00 : pfsE0 (1 / 2) 1 0 = -1 := by
    unfold pfsE0
    rw [hV0]
    exact truncLog2_eq_of_lt_one (by norm_num) (by norm_num) (by norm_num) (by norm_num)
  have hE01 : pfsE0 (1 / 2) 1 1 = -1 := by
    unfold pfsE0
    rw [hV1]
    exact truncLog2_eq_of_lt_one (by norm_num) (by norm_num) (by norm_num) (by norm_num)
  have hE02 : pfsE0 (1 / 2) 1 2 = -1 := by
    unfold pfsE0
    rw [hV2]
    exact truncLog2_eq_of_lt_one (by norm_num) (by norm_num) (by norm_num) (by norm_num)
  have hE03 : pfsE0 (1 / 2) 1 3 = -1 := by
    unfold pfsE0
    rw [hV3]
    exact truncLog2_eq_of_lt_one (by norm_num) (by norm_num) (by norm_num) (by norm_num)
  have hU0 : ¬ pfsUp (1 / 2) 1 0 := by
    unfold pfsUp
    rw [hE00, hV0]
    rintro ⟨-, h⟩
    norm_num at h
  have hU1 : ¬ pfsUp (1 / 2) 1 1 := by
    unfold pfsUp
    rw [hE01, hV1]
    rintro ⟨-, h⟩
    norm_num at h
  have hU2 : ¬ pfsUp (1 / 2) 1 2 := by
    unfold pfsUp
    rw [hE02, hV2]
    rintro ⟨-, h⟩
    norm_num at h
  have hU3 : ¬ pfsUp (1 / 2) 1 3 := by
    unfold pfsUp
    rw [hE03, hV3]
    rintro ⟨-, h⟩
    norm_num at h
  have hE_0 : pfsE (1 / 2) 1 0 = -1 := by unfold pfsE; rw [if_neg hU0, hE00]
  have hE_1 : pfsE (1 / 2) 1 1 = -1 := by unfold pfsE; rw [if_neg hU1, hE01]
  have hE_2 : pfsE (1 / 2) 1 2 = -1 := by unfold pfsE; rw [if_neg hU2, hE02]
  have hE_3 : pfsE (1 / 2) 1 3 = -1 := by unfold pfsE; rw [if_neg hU3, hE03]
  have hQ_0 : pfsQ (1 / 2) 1 0 = 1 := by
    unfold pfsQ
    rw [if_neg hU0, hE00, hV0]
    norm_num
  have hQ_1 : pfsQ (1 / 2) 1 1 = 4 / 5 := by
    unfold pfsQ
    rw [if_neg hU1, hE01, hV1]
    norm_num
  have hQ_2 : pfsQ (1 / 2) 1 2 = 2 / 3 := by
    unfold pfsQ
    rw [if_neg hU2, hE02, hV2]
    norm_num
  have hQ_3 : pfsQ (1 / 2) 1 3 = 4 / 7 := by
    unfold pfsQ
    rw [if_neg hU3, hE03, hV3]
    norm_num
  have s1 : pfsStep (1 / 2) 1 ((2 : ℚ), (0 : ℤ)) 0 = (1, pfsField 0 (-1)) := by
    rw [pfsStep_eq, if_pos ⟨by rw [hE_0]; norm_num, by rw [hQ_0]; norm_num⟩, hQ_0, hE_0]
  have s2 : pfsStep (1 / 2) 1 ((1 : ℚ), pfsField 0 (-1)) 1 = (4 / 5, pfsField 1 (-1)) := by
    rw [pfsStep_eq, if_pos ⟨by rw [hE_1]; norm_num, by rw [hQ_1]; norm_num⟩, hQ_1, hE_1]
  have s3 : pfsStep (1 / 2) 1 ((4 / 5 : ℚ), pfsField 1 (-1)) 2 = (2 / 3, pfsField 2 (-1)) := by
    rw [pfsStep_eq, if_pos ⟨by rw [hE_2]; norm_num, by rw [hQ_2]; norm_num⟩, hQ_2, hE_2]
  have s4 : pfsStep (1 / 2) 1 ((2 / 3 : ℚ), pfsField 2 (-1)) 3 = (4 / 7, pfsField 3 (-1)) := by
    rw [pfsStep_eq, if_pos ⟨by rw [hE_3]; norm_num, by rw [hQ_3]; norm_num⟩, hQ_3, hE_3]
  rw [power_from_seconds_run (1 / 2) 1 (by norm_num), s1, s2, s3, s4]
  exact pfsField_negone 3 (by norm_num)

/-- **C3** counterexample: `seconds = 1`, `time_unit = 1` is far below the
saturation threshold and the grid represents 1 exactly (field `0` decodes
to 1, the next grid value 5/4 is field `0x40`), yet the roundtrip returns
`7/4` — 75 % away from `seconds`, beyond a whole grid step, because every
loop candidate with value below 1 gets a negative `diff` that wins the
minimisation. -/
theorem power_time_roundtrip_cex :
    power_from_seconds 1 1 = 0xc0 ∧
    power_to_seconds (power_from_seconds 1 1) 1 = 7 / 4 ∧
    power_to_seconds 0 1 = 1 ∧
    power_to_seconds 0x40 1 = 5 / 4 ∧
    ¬ (4 / 5 * 1 < power_to_seconds (power_from_seconds 1 1) 1 ∧
        power_to_seconds (power_from_seconds 1 1) 1 < 5 / 4 * 1) := by
  have h1 := pfs_one_one
  have hd : power_to_seconds 0xc0 1 = 7 / 4 := by
    rw [show (0xc0 : ℤ) = ((64 * 3 + 2 * 0 : ℕ) : ℤ) by norm_num,
      power_to_seconds_field 3 0 (by norm_num) (by norm_num) 1]
    norm_num
  have hd0 : power_to_seconds 0 1 = 1 := by
    rw [show (0 : ℤ) = ((64 * 0 + 2 * 0 : ℕ) : ℤ) by norm_num,
      power_to_seconds_field 0 0 (by norm_num) (by norm_num) 1]
    norm_num
  have hd64 : power_to_seconds 0x40 1 = 5 / 4 := by
    rw [show (0x40 : ℤ) = ((64 * 1 + 2 * 0 : ℕ) : ℤ) by norm_num,
      power_to_seconds_field 1 0 (by norm_num) (by norm_num) 1]
    norm_num
  refine ⟨h1, by rw [h1]; exact hd, hd0, hd64, ?_⟩
  rw [h1, hd]
  rintro ⟨-, h⟩
  norm_num at h

/-- **C5** counterexample: pre-write value 0, `power_unit = time_unit = 1`,
zero watt requests, and the positive short time window `1/2` s: the window
encodes to the two's-complement field −2, whose `uint64_t` conversion and
48-bit splice produce `0xfffe000000000000` — bits 49–63 are set, including
the lock bit 63, although all of them lie inside the claimed preserved
mask. -/
theorem plWriteValue_preserves_cex :
    plWriteValue 0 1 1 0 0 (1 / 2) 0 = 0xfffe000000000000 ∧
    plWriteValue 0 1 1 0 0 (1 / 2) 0 &&& plPreservedMask (1 / 2) 0 ≠
      0 &&& plPreservedMask (1 / 2) 0 ∧
    Nat.testBit (plWriteValue 0 1 1 0 0 (1 / 2) 0) 63 ≠ Nat.testBit 0 63 := by
  have hval : plWriteValue 0 1 1 0 0 (1 / 2) 0 = 0xfffe000000000000 := by
    simp only [plWriteValue]
    rw [if_pos (show (0 : ℚ) < 1 / 2 by norm_num), if_neg (show ¬ ((0 : ℚ) < 0) by norm_num)]
    rw [pfs_half_one]
    decide
  refine ⟨hval, ?_, ?_⟩
  · rw [hval]
    unfold plPreservedMask
    rw [if_pos (show (0 : ℚ) < 1 / 2 by norm_num), if_neg (show ¬ ((0 : ℚ) < 0) by norm_num)]
    decide
  · rw [hval]
    decide

theorem plWriteValue_preserves_witness :
    plWriteValue 0x8000800000008000 4 1 10 10 1 0 &&& plPreservedMask 1 0 =
      0x8000800000008000 &&& plPreservedMask 1 0 ∧
    Nat.testBit (plWriteValue 0x8000800000008000 4 1 10 10 1 0) 63 =
      Nat.testBit 0x8000800000008000 63 ∧
    Nat.testBit (plWriteValue 0x8000800000008000 4 1 10 10 1 0) 47 =
      Nat.testBit 0x8000800000008000 47 ∧
    Nat.testBit (plWriteValue 0x8000800000008000 4 1 10 10 1 0) 15 =
      Nat.testBit 0x8000800000008000 15 :=
  plWriteValue_preserves 0x8000800000008000 4 1 10 10 1 0
    (fun _ => by rw [pfs_one_one]; norm_num)
    (fun h => absurd h (by norm_num))
